import Mathlib

/-!
Verification of the card scheduler and answer-evaluation engine of
`streamlit_app.py` (Italian irregular-verb drill).

Python strings are modelled as lists of Unicode scalar values (`List Char`);
`str.strip` / `str.lower` / `unicodedata.normalize('NFD', ·)` /
`unicodedata.category · = 'Mn'` are modelled character-wise over the
characters this program's data can contain: ASCII, the Latin-1 letters,
and the combining diacritical marks block U+0300–U+036F.  Fallible Python
code (raising statements, `dict`/`list` subscripts that can throw) is
modelled with `Option`/`Except`.  Calls to `random.shuffle` are modelled by
quantifying over permutations of the shuffled list.
-/

set_option autoImplicit false

namespace ItalianVerbit

/-- Python string: a list of Unicode scalar values. -/
abbrev PyStr := List Char

/-- Coerce a Lean string literal to the model's string type. -/
def pstr (s : String) : PyStr := s.data

/-- Whitespace as stripped by `str.strip()` (the characters of it that occur
in this model's character set: space, tab, newline, carriage return). -/
def isPySpace (c : Char) : Bool :=
  decide (c.toNat = 32 ∨ c.toNat = 9 ∨ c.toNat = 10 ∨ c.toNat = 13)

/-- Model of `str.strip()`: remove leading and trailing whitespace. -/
def pyStrip (s : PyStr) : PyStr :=
  ((s.dropWhile isPySpace).reverse.dropWhile isPySpace).reverse

/-- Model of `str.lower()` on one character, covering ASCII `A`–`Z` and the
Latin-1 capitals `À`–`Þ` (U+00C0–U+00DE except the multiplication sign ×,
exactly Unicode's simple lowercase mapping on that range). -/
def pyLower (c : Char) : Char :=
  let n := c.toNat
  if (65 ≤ n ∧ n ≤ 90) ∨ (192 ≤ n ∧ n ≤ 222 ∧ n ≠ 215) then Char.ofNat (n + 32) else c

/-- U+0300 COMBINING GRAVE ACCENT. -/
def combGrave : Char := Char.ofNat 0x300

/-- U+0301 COMBINING ACUTE ACCENT. -/
def combAcute : Char := Char.ofNat 0x301

/-- Canonical (NFD) decomposition of one character: the table covers the
accented lowercase letters that occur in Italian conjugation data (the
strings are lowercased before this step runs); every other character of the
model is already fully decomposed. -/
def nfdChar (c : Char) : List Char :=
  if c = 'à' then ['a', combGrave] else
  if c = 'è' then ['e', combGrave] else
  if c = 'é' then ['e', combAcute] else
  if c = 'ì' then ['i', combGrave] else
  if c = 'ò' then ['o', combGrave] else
  if c = 'ù' then ['u', combGrave] else
  [c]

/-- Unicode general category Mn (nonspacing combining mark), restricted to
the combining diacritical marks block U+0300–U+036F. -/
def isMn (c : Char) : Bool :=
  decide (0x300 ≤ c.toNat ∧ c.toNat ≤ 0x36F)

/-- Model of `normalize` (`streamlit_app.py` lines 17–21): strip surrounding
whitespace, lowercase, canonically decompose, and drop every combining mark. -/
def normalize (s : PyStr) : PyStr :=
  ((((pyStrip s).map pyLower).flatMap nfdChar).filter (fun c => !isMn c))

/-- Model of the answer comparator `normalize(a) == normalize(b)` used at
lines 301 and 367. -/
def answers_match (a b : PyStr) : Bool :=
  normalize a == normalize b

/-- Verb record (`streamlit_app.py` lines 23–32).  `imperative` is a Python
dict, modelled as an association list; `irregular_imperfect` is `None` or a
list (Python truthiness of the optional list is modelled in
`Verb.imperfect`). -/
structure Verb where
  infinitive : PyStr
  translation_fi : PyStr
  present : List PyStr
  noi_present : PyStr
  auxiliary : PyStr
  past_participle : PyStr
  imperative : List (PyStr × PyStr)
  irregular_imperfect : Option (List PyStr)
deriving DecidableEq

/-- Python `s[:-n]`: drop the last `n` characters (empty result when the
string has at most `n` characters). -/
def sliceDropLast (s : PyStr) (n : Nat) : PyStr :=
  s.take (s.length - n)

/-- Fixed imperfect endings, in person order (line 54). -/
def imperfectEndings : List PyStr :=
  [pstr "vo", pstr "vi", pstr "va", pstr "vamo", pstr "vate", pstr "vano"]

/-- Generic imperfect base (lines 50–53): strip the last 4 characters of the
noi-present form when it ends in `iamo`, else strip the last 3. -/
def Verb.stripBase (v : Verb) : PyStr :=
  if !((pstr "iamo").isSuffixOf v.noi_present) then sliceDropLast v.noi_present 3
  else sliceDropLast v.noi_present 4

/-- Imperfect base after the two lexical corrections (lines 55–58): the
`fare` correction fires when the infinitive is `fare` AND the noi-present
starts with `fac`; symmetrically for `dire`/`dici`. -/
def Verb.imperfectBase (v : Verb) : PyStr :=
  let base := v.stripBase
  let base := if v.infinitive = pstr "fare" ∧ (pstr "fac").isPrefixOf v.noi_present
              then pstr "face" else base
  if v.infinitive = pstr "dire" ∧ (pstr "dici").isPrefixOf v.noi_present
  then pstr "dice" else base

/-- Derived imperfect forms (line 59): base + ending, per person. -/
def Verb.derivedImperfect (v : Verb) : List PyStr :=
  imperfectEndings.map (fun e => v.imperfectBase ++ e)

/-- Model of `Verb.imperfect` (lines 47–59).  Python's
`if self.irregular_imperfect:` is truthiness: `None` and the empty list both
fall through to derivation. -/
def Verb.imperfect (v : Verb) : List PyStr :=
  match v.irregular_imperfect with
  | some irr => if irr = [] then v.derivedImperfect else irr
  | none => v.derivedImperfect

/-- Card (`streamlit_app.py` lines 67–72). -/
structure Card where
  verb : Verb
  tense : PyStr
  person_idx : Option Nat
  person_label : Option PyStr
deriving DecidableEq

/-- Person names, in person order (line 13). -/
def PERSONS : List PyStr :=
  [pstr "io", pstr "tu", pstr "lui/lei", pstr "noi", pstr "voi", pstr "loro"]

/-- Imperative person labels (line 14). -/
def IMPERATIVE_PERSONS : List PyStr := [pstr "tu", pstr "noi", pstr "voi"]

/-- The four recognized tense identifiers (line 15). -/
def TENSES_ALL : List PyStr :=
  [pstr "presente", pstr "imperfetto", pstr "passato_prossimo", pstr "imperativo"]

/-- Python dict lookup (first, hence only, binding of the key). -/
def dictGet {α : Type} (m : List (PyStr × α)) (k : PyStr) : Option α :=
  match m with
  | [] => none
  | p :: rest => if p.1 = k then some p.2 else dictGet rest k

/-- Python dict assignment `m[k] = v`: overwrite the binding in place, or
append a new one. -/
def dictSet {α : Type} (m : List (PyStr × α)) (k : PyStr) (v : α) : List (PyStr × α) :=
  match m with
  | [] => [(k, v)]
  | p :: rest => if p.1 = k then (k, v) :: rest else p :: dictSet rest k v

/-- Proficiency record (lines 74–76): the persisted card-key → box mapping.
`load_progress` performs no validation, so any integer box values can be
present after a load. -/
structure Progress where
  boxes : List (PyStr × Int)
deriving DecidableEq

/-- Model of `Progress.key` (lines 78–83).  `PERSONS[c.person_idx]` raises
when the index is `None` or out of range, hence the `Option`. -/
def Progress.key (c : Card) : Option PyStr :=
  let pk := if c.tense = pstr "imperativo" then c.person_label
            else c.person_idx.bind (fun i => PERSONS.get? i)
  pk.map (fun p => c.verb.infinitive ++ pstr "|" ++ c.tense ++ pstr "|" ++ p)

/-- Model of `Progress.get_box` (lines 85–86): stored box, default 1. -/
def Progress.get_box (prog : Progress) (c : Card) : Option Int :=
  (Progress.key c).map (fun k => (dictGet prog.boxes k).getD 1)

/-- Model of `Progress.update` (lines 88–94). -/
def Progress.update (prog : Progress) (c : Card) (correct : Bool) : Option Progress :=
  (Progress.key c).map (fun k =>
    let cur := (dictGet prog.boxes k).getD 1
    if correct then ⟨dictSet prog.boxes k (min 5 (cur + 1))⟩
    else ⟨dictSet prog.boxes k 1⟩)

/-- Chain of `Progress.update` calls on one card. -/
def runAnswers (c : Card) (prog : Progress) : List Bool → Option Progress
  | [] => some prog
  | a :: rest => (prog.update c a).bind (fun p => runAnswers c p rest)

/-- Box values a card passes through under a sequence of answers: the box
before any answer, then the box after each successive update. -/
def boxTrace (c : Card) (prog : Progress) : List Bool → Option (List Int)
  | [] => (prog.get_box c).map (fun b => [b])
  | a :: rest =>
    (prog.get_box c).bind (fun b =>
      (prog.update c a).bind (fun p =>
        (boxTrace c p rest).map (fun t => b :: t)))

/-- Model of `make_cards` (lines 120–130). -/
def make_cards (verbs : List Verb) (tenses : List PyStr) : List Card :=
  verbs.flatMap (fun v =>
    tenses.flatMap (fun t =>
      if t = pstr "imperativo" then
        IMPERATIVE_PERSONS.map (fun lbl => ⟨v, t, none, some lbl⟩)
      else
        (List.range 6).map (fun i => ⟨v, t, some i, none⟩)))

/-- Exceptions `expected_form` can raise: `ValueError` for the unknown-tense
branch (line 152), `TypeError` for a `None` list index, `IndexError` for an
out-of-range list index, `KeyError` for a failed dict lookup. -/
inductive PyErr where
  | valueError
  | typeError
  | indexError
  | keyError
deriving DecidableEq

/-- Python `l[i]` on a list, where `i` may be `None` (the model's person
indices are the natural numbers 0–5 produced by `make_cards`). -/
def listGetPy (l : List PyStr) (i : Option Nat) : Except PyErr PyStr :=
  match i with
  | none => .error .typeError
  | some j =>
    match l.get? j with
    | some x => .ok x
    | none => .error .indexError

/-- The six present forms of `essere`, as hardcoded at lines 139–148. -/
def esserePresent : List PyStr :=
  [pstr "sono", pstr "sei", pstr "è", pstr "siamo", pstr "siete", pstr "sono"]

/-- The six present forms of `avere`, as hardcoded at lines 139–148. -/
def averePresent : List PyStr :=
  [pstr "ho", pstr "hai", pstr "ha", pstr "abbiamo", pstr "avete", pstr "hanno"]

/-- Model of `expected_form` (lines 132–152). -/
def expected_form (card : Card) : Except PyErr PyStr :=
  let v := card.verb
  if card.tense = pstr "presente" then
    listGetPy v.present card.person_idx
  else if card.tense = pstr "imperfetto" then
    listGetPy v.imperfect card.person_idx
  else if card.tense = pstr "passato_prossimo" then
    let forms :=
      [ (if v.auxiliary = pstr "essere" then pstr "sono" else pstr "ho") ++ pstr " " ++ v.past_participle,
        (if v.auxiliary = pstr "essere" then pstr "sei" else pstr "hai") ++ pstr " " ++ v.past_participle,
        (if v.auxiliary = pstr "essere" then pstr "è" else pstr "ha") ++ pstr " " ++ v.past_participle,
        (if v.auxiliary = pstr "essere" then pstr "siamo" else pstr "abbiamo") ++ pstr " " ++ v.past_participle,
        (if v.auxiliary = pstr "essere" then pstr "siete" else pstr "avete") ++ pstr " " ++ v.past_participle,
        (if v.auxiliary = pstr "essere" then pstr "sono" else pstr "hanno") ++ pstr " " ++ v.past_participle ]
    listGetPy forms card.person_idx
  else if card.tense = pstr "imperativo" then
    match card.person_label with
    | none => .error .keyError
    | some lbl =>
      match dictGet v.imperative lbl with
      | some f => .ok f
      | none => .error .keyError
  else
    .error .valueError

/-- Sampler weight per box (line 158): the dict `{1:6, 2:4, 3:2, 4:1, 5:1}`;
lookup of any other box value raises `KeyError`. -/
def boxWeight (box : Int) : Option Nat :=
  if box = 1 then some 6
  else if box = 2 then some 4
  else if box = 3 then some 2
  else if box = 4 then some 1
  else if box = 5 then some 1
  else none

/-- The weighted multiset built at lines 155–159: each card replicated
`boxWeight` times, in card order; `none` when a box value is outside the
weight dict (or a card's key cannot be formed). -/
def weightedPool (cards : List Card) (prog : Progress) : Option (List Card) :=
  match cards with
  | [] => some []
  | c :: rest => do
    let box ← prog.get_box c
    let w ← boxWeight box
    let tail ← weightedPool rest prog
    pure (List.replicate w c ++ tail)

/-- Card identity used for deduplication at line 164: the tuple
`(infinitive, tense, person_idx, person_label)`. -/
def idKey (c : Card) : PyStr × PyStr × Option Nat × Option PyStr :=
  (c.verb.infinitive, c.tense, c.person_idx, c.person_label)

/-- The scan at lines 161–170: walk the (shuffled) weighted list, keeping
the first occurrence of each identity; after each element the loop stops as
soon as `n ≤` the output length. -/
def pickScan (n : Nat) (seen : List (PyStr × PyStr × Option Nat × Option PyStr))
    (out : List Card) : List Card → List Card
  | [] => out
  | c :: rest =>
    let k := idKey c
    let out' := if k ∈ seen then out else out ++ [c]
    let seen' := if k ∈ seen then seen else k :: seen
    if n ≤ out'.length then out' else pickScan n seen' out' rest

/-- Model of `pick_due_cards` (lines 154–170).  `shuffle` stands for
`random.shuffle`; theorems constrain it to permute its input. -/
def pick_due_cards (cards : List Card) (prog : Progress) (n : Nat)
    (shuffle : List Card → List Card) : Option (List Card) :=
  (weightedPool cards prog).map (fun w => pickScan n [] [] (shuffle w))

/-- The distractor pool (lines 320–325): `expected_form` over every card of
the card space, silently skipping the ones that raise. -/
def formPool (cardsAll : List Card) : List PyStr :=
  cardsAll.filterMap (fun d => (expected_form d).toOption)

/-- Python `set.add` on the model's insertion-ordered representation of the
options set. -/
def setAdd (options : List PyStr) (x : PyStr) : List PyStr :=
  if x ∈ options then options else options ++ [x]

/-- The collection loop at lines 327–331: scan the (shuffled) pool, adding
each form whose normalization differs from the correct form's, stopping once
the set has 4 members. -/
def mcCollect (correct : PyStr) (options : List PyStr) : List PyStr → List PyStr
  | [] => options
  | form :: rest =>
    if 4 ≤ options.length then options
    else if normalize form ≠ normalize correct then
      mcCollect correct (setAdd options form) rest
    else
      mcCollect correct options rest

/-- Model of the multiple-choice option construction (lines 317–337),
starting from `options = {correct}`.  `shuffledPool` stands for the pool
after `random.shuffle`; the final shuffle of the option list only permutes
it, so the set of options is already determined here. -/
def mc_options (correct : PyStr) (shuffledPool : List PyStr) : List PyStr :=
  mcCollect correct [correct] shuffledPool

/-- Concrete verb record used by witnesses: `fare` as the lexicon stores it. -/
def fareVerb : Verb :=
  ⟨pstr "fare", pstr "tehda",
    [pstr "faccio", pstr "fai", pstr "fa", pstr "facciamo", pstr "fate", pstr "fanno"],
    pstr "facciamo", pstr "avere", pstr "fatto",
    [(pstr "tu", pstr "fai"), (pstr "noi", pstr "facciamo"), (pstr "voi", pstr "fate")],
    none⟩

/-- Concrete verb record used by witnesses: `essere` as the lexicon stores
it (auxiliary `essere`, past participle `stato`, irregular imperfect). -/
def essereVerb : Verb :=
  ⟨pstr "essere", pstr "olla", esserePresent, pstr "siamo", pstr "essere", pstr "stato",
    [(pstr "tu", pstr "sii"), (pstr "noi", pstr "siamo"), (pstr "voi", pstr "siate")],
    some [pstr "ero", pstr "eri", pstr "era", pstr "eravamo", pstr "eravate", pstr "erano"]⟩

/-- Concrete card used by witnesses: `fare`, present tense, person `io`. -/
def sampleCard : Card := ⟨fareVerb, pstr "presente", some 0, none⟩

/-- Verb record whose noi-present has the `fac` prefix but whose infinitive
is not `fare`: separates prefix-triggered from identity-and-prefix-triggered
stem correction. -/
def facPrefixVerb : Verb :=
  ⟨pstr "stare", pstr "",
    [pstr "sto", pstr "stai", pstr "sta", pstr "stiamo", pstr "state", pstr "stanno"],
    pstr "facciamo", pstr "avere", pstr "stato", [], none⟩

/-- Verb record whose present forms contain the pair `è` / `e` (equal after
normalization) next to forms distinct from `ho`: exercises the distractor
collection. -/
def mcVerb : Verb :=
  ⟨pstr "xare", pstr "",
    [pstr "ho", pstr "è", pstr "e", pstr "xa", pstr "xb", pstr "xc"],
    pstr "xiamo", pstr "avere", pstr "xato", [], none⟩

/-- Per-character effect of the lowercase/decompose/drop-marks part of
`normalize`: what one already-stripped character contributes to the output. -/
def procChar (c : Char) : List Char :=
  (nfdChar (pyLower c)).filter (fun d => !isMn d)

/-- The single character `procChar` produces for a non-combining-mark input. -/
def procChar1 (c : Char) : Char :=
  (procChar c).headD c

/-- Characters `normalize` outputs are fixed by every stage of it: not a
combining mark, lowercase, and fully decomposed. -/
def canonChar (c : Char) : Prop :=
  isMn c = false ∧ pyLower c = c ∧ nfdChar c = [c]

/-- Lookup after an overwrite finds the written value. -/
theorem dictGet_dictSet_self {α : Type} (m : List (PyStr × α)) (k : PyStr) (v : α) :
    dictGet (dictSet m k v) k = some v := by
  induction m with
  | nil => simp [dictSet, dictGet]
  | cons p rest ih =>
    by_cases hp : p.1 = k
    · simp [dictSet, hp, dictGet]
    · simp [dictSet, hp, dictGet, ih]

/-- C1: on a correct answer the tracker sets the card's box to
`min (current box + 1) 5` (a card at box 5 stays at 5), on an incorrect
answer it resets the box to exactly 1 whatever its current value, a card
never updated reads box 1, and a card answered correct, correct, wrong,
correct starting from an empty record passes through boxes 1, 2, 3, 1, 2. -/
theorem update_leitner_spec (prog : Progress) (c : Card)
    (h : (Progress.key c).isSome) :
    ((prog.update c true).bind (fun p => p.get_box c)
        = (prog.get_box c).map (fun b => min 5 (b + 1)))
    ∧ ((prog.update c false).bind (fun p => p.get_box c) = some 1)
    ∧ (∀ k, Progress.key c = some k → dictGet prog.boxes k = none →
        prog.get_box c = some 1)
    ∧ boxTrace c ⟨[]⟩ [true, true, false, true] = some [1, 2, 3, 1, 2] := by
  obtain ⟨k, hk⟩ := Option.isSome_iff_exists.mp h
  refine ⟨?_, ?_, ?_, ?_⟩
  · simp [Progress.update, Progress.get_box, hk, dictGet_dictSet_self]
  · simp [Progress.update, Progress.get_box, hk, dictGet_dictSet_self]
  · intro k' hk' hnone
    simp [Progress.get_box, hk', hnone]
  · have h2 : min (5 : Int) (1 + 1) = 2 := by decide
    have h3 : min (5 : Int) (2 + 1) = 3 := by decide
    simp [boxTrace, Progress.get_box, Progress.update, hk, dictGet, dictSet, h2, h3]

/-- Witness for C1 at a concrete card and the empty proficiency record. -/
theorem update_leitner_spec_witness :
    ((Progress.update ⟨[]⟩ sampleCard true).bind (fun p => p.get_box sampleCard)
        = (Progress.get_box ⟨[]⟩ sampleCard).map (fun b => min 5 (b + 1)))
    ∧ ((Progress.update ⟨[]⟩ sampleCard false).bind (fun p => p.get_box sampleCard) = some 1)
    ∧ (∀ k, Progress.key sampleCard = some k → dictGet (Progress.boxes ⟨[]⟩) k = none →
        Progress.get_box ⟨[]⟩ sampleCard = some 1)
    ∧ boxTrace sampleCard ⟨[]⟩ [true, true, false, true] = some [1, 2, 3, 1, 2] :=
  update_leitner_spec ⟨[]⟩ sampleCard (by decide)

/-- C3: for a verb without an irregular-imperfect override, the six
imperfect forms are one morphological base followed by the endings vo, vi,
va, vamo, vate, vano in person order; the base is the noi-present with its
last 4 characters stripped when it ends in `iamo` and its last 3 otherwise,
possibly replaced by the `fare`/`dire` corrected stem; the form at person
index 0 ends in `vo`. -/
theorem imperfect_derivation (v : Verb) (h : v.irregular_imperfect = none) :
    ∃ base : PyStr,
      v.imperfect = [base ++ pstr "vo", base ++ pstr "vi", base ++ pstr "va",
        base ++ pstr "vamo", base ++ pstr "vate", base ++ pstr "vano"]
      ∧ (base = pstr "face" ∨ base = pstr "dice" ∨
          base = (if (pstr "iamo").isSuffixOf v.noi_present then
                    sliceDropLast v.noi_present 4
                  else sliceDropLast v.noi_present 3))
      ∧ (∀ f, v.imperfect.get? 0 = some f → (pstr "vo").isSuffixOf f = true) := by
  have hforms : v.imperfect = [v.imperfectBase ++ pstr "vo", v.imperfectBase ++ pstr "vi",
      v.imperfectBase ++ pstr "va", v.imperfectBase ++ pstr "vamo",
      v.imperfectBase ++ pstr "vate", v.imperfectBase ++ pstr "vano"] := by
    simp [Verb.imperfect, h, Verb.derivedImperfect, imperfectEndings]
  refine ⟨v.imperfectBase, hforms, ?_, ?_⟩
  · by_cases hd : v.infinitive = pstr "dire" ∧ (pstr "dici").isPrefixOf v.noi_present = true
    · right; left
      simp only [Verb.imperfectBase]
      rw [if_pos hd]
    · by_cases hf : v.infinitive = pstr "fare" ∧ (pstr "fac").isPrefixOf v.noi_present = true
      · left
        simp only [Verb.imperfectBase]
        rw [if_neg hd, if_pos hf]
      · right; right
        simp only [Verb.imperfectBase]
        rw [if_neg hd, if_neg hf]
        unfold Verb.stripBase
        by_cases hs : (pstr "iamo").isSuffixOf v.noi_present = true
        · rw [if_neg (by simp [hs]), if_pos hs]
        · rw [if_pos (by simp [Bool.of_not_eq_true hs]), if_neg hs]
  · intro f hf
    rw [hforms] at hf
    simp at hf
    rw [← hf]
    exact List.isSuffixOf_iff_suffix.mpr (List.suffix_append _ _)

/-- Witness for C3 at the verb `fare` (noi-present `facciamo`, no override):
its imperfect forms are `face` + the six endings. -/
theorem imperfect_derivation_witness :
    ∃ base : PyStr,
      fareVerb.imperfect = [base ++ pstr "vo", base ++ pstr "vi", base ++ pstr "va",
        base ++ pstr "vamo", base ++ pstr "vate", base ++ pstr "vano"]
      ∧ (base = pstr "face" ∨ base = pstr "dice" ∨
          base = (if (pstr "iamo").isSuffixOf fareVerb.noi_present then
                    sliceDropLast fareVerb.noi_present 4
                  else sliceDropLast fareVerb.noi_present 3))
      ∧ (∀ f, fareVerb.imperfect.get? 0 = some f → (pstr "vo").isSuffixOf f = true) :=
  imperfect_derivation fareVerb rfl

/-- C7 counterexample: a verb without an override whose noi-present starts
with `fac` but whose infinitive is not `fare` keeps the generic stripped
base `facc` — person 0 yields `faccvo`, not the corrected `facevo`, so the
stem correction is not triggered by the literal prefix alone. -/
theorem imperfect_correction_cex :
    facPrefixVerb.irregular_imperfect = none
    ∧ (pstr "fac").isPrefixOf facPrefixVerb.noi_present = true
    ∧ facPrefixVerb.infinitive ≠ pstr "fare"
    ∧ facPrefixVerb.imperfect.get? 0 = some (pstr "faccvo")
    ∧ pstr "faccvo" ≠ pstr "facevo" := by decide

/-- C7 amended: the `face` (resp. `dice`) stem correction fires exactly when
the verb's infinitive is `fare` (resp. `dire`) AND its noi-present starts
with `fac` (resp. `dici`); with any other infinitive the generic stripped
base is used unchanged.  In particular `fare` with noi-present `facciamo`
derives `facevo` at person index 0. -/
theorem imperfect_correction_amended (v : Verb) (h : v.irregular_imperfect = none) :
    (v.infinitive = pstr "fare" → (pstr "fac").isPrefixOf v.noi_present = true →
      v.imperfect = imperfectEndings.map (fun e => pstr "face" ++ e))
    ∧ (v.infinitive = pstr "dire" → (pstr "dici").isPrefixOf v.noi_present = true →
      v.imperfect = imperfectEndings.map (fun e => pstr "dice" ++ e))
    ∧ (v.infinitive ≠ pstr "fare" → v.infinitive ≠ pstr "dire" →
      v.imperfect = imperfectEndings.map (fun e => v.stripBase ++ e)) := by
  have hderiv : v.imperfect = imperfectEndings.map (fun e => v.imperfectBase ++ e) := by
    simp [Verb.imperfect, h, Verb.derivedImperfect]
  refine ⟨?_, ?_, ?_⟩
  · intro hfi hfp
    have hd : ¬ (v.infinitive = pstr "dire" ∧ (pstr "dici").isPrefixOf v.noi_present = true) := by
      rintro ⟨hdi, -⟩
      rw [hfi] at hdi
      exact absurd hdi (by decide)
    have hb : v.imperfectBase = pstr "face" := by
      simp only [Verb.imperfectBase]
      rw [if_neg hd, if_pos ⟨hfi, hfp⟩]
    rw [hderiv, hb]
  · intro hdi hdp
    have hb : v.imperfectBase = pstr "dice" := by
      simp only [Verb.imperfectBase]
      rw [if_pos ⟨hdi, hdp⟩]
    rw [hderiv, hb]
  · intro hfi hdi
    have hb : v.imperfectBase = v.stripBase := by
      simp only [Verb.imperfectBase]
      rw [if_neg (by rintro ⟨hx, -⟩; exact hdi hx), if_neg (by rintro ⟨hx, -⟩; exact hfi hx)]
    rw [hderiv, hb]

/-- Witness for C7 at the verb `fare`: the corrected stem applies, so
`fare`'s imperfect forms are `face` + the endings (`facevo` first). -/
theorem imperfect_correction_amended_witness :
    ((fareVerb.infinitive = pstr "fare" →
        (pstr "fac").isPrefixOf fareVerb.noi_present = true →
        fareVerb.imperfect = imperfectEndings.map (fun e => pstr "face" ++ e))
      ∧ (fareVerb.infinitive = pstr "dire" →
          (pstr "dici").isPrefixOf fareVerb.noi_present = true →
          fareVerb.imperfect = imperfectEndings.map (fun e => pstr "dice" ++ e))
      ∧ (fareVerb.infinitive ≠ pstr "fare" → fareVerb.infinitive ≠ pstr "dire" →
          fareVerb.imperfect = imperfectEndings.map (fun e => fareVerb.stripBase ++ e)))
    ∧ fareVerb.imperfect.get? 0 = some (pstr "facevo") :=
  ⟨imperfect_correction_amended fareVerb rfl, by decide⟩

/-- Unfolding of `expected_form` on the passato prossimo branch. -/
theorem expected_form_passato (v : Verb) (i : Option Nat) :
    expected_form ⟨v, pstr "passato_prossimo", i, none⟩
      = listGetPy
          [ (if v.auxiliary = pstr "essere" then pstr "sono" else pstr "ho") ++ pstr " " ++ v.past_participle,
            (if v.auxiliary = pstr "essere" then pstr "sei" else pstr "hai") ++ pstr " " ++ v.past_participle,
            (if v.auxiliary = pstr "essere" then pstr "è" else pstr "ha") ++ pstr " " ++ v.past_participle,
            (if v.auxiliary = pstr "essere" then pstr "siamo" else pstr "abbiamo") ++ pstr " " ++ v.past_participle,
            (if v.auxiliary = pstr "essere" then pstr "siete" else pstr "avete") ++ pstr " " ++ v.past_participle,
            (if v.auxiliary = pstr "essere" then pstr "sono" else pstr "hanno") ++ pstr " " ++ v.past_participle ] i := by
  rfl

/-- C4: the passato prossimo form at person index 0–5 is the person-indexed
present form of `essere` when the verb's auxiliary is `essere` and of
`avere` otherwise, then a single space, then the past participle, which is
the same for every person. -/
theorem passato_prossimo_spec (v : Verb) (i : Nat) (hi : i < 6) :
    expected_form ⟨v, pstr "passato_prossimo", some i, none⟩
      = .ok (((if v.auxiliary = pstr "essere" then esserePresent else averePresent).getD i [])
              ++ pstr " " ++ v.past_participle) := by
  rw [expected_form_passato]
  by_cases ha : v.auxiliary = pstr "essere" <;>
    (interval_cases i <;> simp [ha, listGetPy, esserePresent, averePresent])

/-- Witness for C4 at the verb `essere` (auxiliary `essere`, participle
`stato`) and person index 0: the form is `sono stato`. -/
theorem passato_prossimo_spec_witness :
    (expected_form ⟨essereVerb, pstr "passato_prossimo", some 0, none⟩
        = .ok (((if essereVerb.auxiliary = pstr "essere" then esserePresent else averePresent).getD 0 [])
                ++ pstr " " ++ essereVerb.past_participle))
    ∧ expected_form ⟨essereVerb, pstr "passato_prossimo", some 0, none⟩
        = .ok (pstr "sono stato") :=
  ⟨passato_prossimo_spec essereVerb 0 (by decide), by rfl⟩

/-- Looking a person index up in a list of forms never raises the
unknown-tense `ValueError`. -/
theorem listGetPy_ne_valueError (l : List PyStr) (i : Option Nat) :
    listGetPy l i ≠ .error .valueError := by
  match i with
  | none => simp [listGetPy]
  | some j =>
    simp only [listGetPy]
    cases l.get? j <;> simp

/-- A card of the card space carries one of the selected tenses. -/
theorem tense_of_mem_make_cards (verbs : List Verb) (tenses : List PyStr) (c : Card)
    (hc : c ∈ make_cards verbs tenses) : c.tense ∈ tenses := by
  simp only [make_cards, List.mem_flatMap] at hc
  obtain ⟨v, -, t, ht, hmem⟩ := hc
  by_cases him : t = pstr "imperativo"
  · rw [if_pos him] at hmem
    simp only [List.mem_map] at hmem
    obtain ⟨lbl, -, rfl⟩ := hmem
    exact ht
  · rw [if_neg him] at hmem
    simp only [List.mem_map] at hmem
    obtain ⟨i, -, rfl⟩ := hmem
    exact ht

/-- C8: a card whose tense identifier is not one of the four recognized
tenses makes `expected_form` raise the unknown-tense `ValueError` rather
than return a form, and a card produced by the card space from selected
tenses never reaches that raise. -/
theorem unknown_tense_dispatch :
    (∀ c : Card, c.tense ∉ TENSES_ALL → expected_form c = .error .valueError)
    ∧ (∀ (verbs : List Verb) (tenses : List PyStr) (c : Card),
        (∀ t ∈ tenses, t ∈ TENSES_ALL) → c ∈ make_cards verbs tenses →
        expected_form c ≠ .error .valueError) := by
  have hknown : ∀ c : Card, c.tense ∈ TENSES_ALL → expected_form c ≠ .error .valueError := by
    intro c hc
    simp only [TENSES_ALL, List.mem_cons, List.not_mem_nil, or_false] at hc
    rcases hc with h | h | h | h
    · simp only [expected_form]
      rw [if_pos h]
      exact listGetPy_ne_valueError _ _
    · simp only [expected_form]
      rw [if_neg (by rw [h]; decide), if_pos h]
      exact listGetPy_ne_valueError _ _
    · simp only [expected_form]
      rw [if_neg (by rw [h]; decide), if_neg (by rw [h]; decide), if_pos h]
      exact listGetPy_ne_valueError _ _
    · simp only [expected_form]
      rw [if_neg (by rw [h]; decide), if_neg (by rw [h]; decide),
        if_neg (by rw [h]; decide), if_pos h]
      cases c.person_label with
      | none => simp
      | some lbl => cases hdg : dictGet c.verb.imperative lbl <;> simp [hdg]
  refine ⟨?_, ?_⟩
  · intro c hc
    simp only [TENSES_ALL, List.mem_cons, List.not_mem_nil, or_false, not_or] at hc
    obtain ⟨h1, h2, h3, h4⟩ := hc
    simp only [expected_form]
    rw [if_neg h1, if_neg h2, if_neg h3, if_neg h4]
  · intro verbs tenses c hsub hc
    exact hknown c (hsub c.tense (tense_of_mem_make_cards verbs tenses c hc))

/-- C5: normalization strips surrounding whitespace, lowercases, canonically
decomposes and removes every combining mark, in that order; two answers
match exactly when their normalizations are equal strings; hence `è`, `e`,
`È` and ` e ` are mutually equal under the comparator while `ho` and `ha`
are not. -/
theorem answer_comparator_spec :
    (∀ s : PyStr, normalize s
        = (((pyStrip s).map pyLower).flatMap nfdChar).filter (fun c => !isMn c))
    ∧ (∀ a b : PyStr, answers_match a b = true ↔ normalize a = normalize b)
    ∧ normalize (pstr "è") = pstr "e"
    ∧ normalize (pstr "e") = pstr "e"
    ∧ normalize (pstr "È") = pstr "e"
    ∧ normalize (pstr " e ") = pstr "e"
    ∧ answers_match (pstr "è") (pstr "e") = true
    ∧ answers_match (pstr "è") (pstr "È") = true
    ∧ answers_match (pstr "è") (pstr " e ") = true
    ∧ answers_match (pstr "È") (pstr " e ") = true
    ∧ answers_match (pstr "ho") (pstr "ha") = false := by
  refine ⟨fun s => rfl, fun a b => ?_, ?_, ?_, ?_, ?_, ?_, ?_, ?_, ?_, ?_⟩
  · simp [answers_match]
  all_goals decide

/-- Every element the scan outputs comes from the accumulator or the input. -/
theorem pickScan_mem (n : Nat) (seen : List (PyStr × PyStr × Option Nat × Option PyStr))
    (out : List Card) (l : List Card) :
    ∀ x ∈ pickScan n seen out l, x ∈ out ∨ x ∈ l := by
  induction l generalizing seen out with
  | nil =>
    intro x hx
    exact .inl hx
  | cons c rest ih =>
    intro x hx
    simp only [pickScan] at hx
    by_cases hk : idKey c ∈ seen
    · rw [if_pos hk, if_pos hk] at hx
      by_cases hn : n ≤ out.length
      · rw [if_pos hn] at hx
        exact .inl hx
      · rw [if_neg hn] at hx
        rcases ih _ _ x hx with h | h
        · exact .inl h
        · exact .inr (List.mem_cons_of_mem _ h)
    · rw [if_neg hk, if_neg hk] at hx
      by_cases hn : n ≤ (out ++ [c]).length
      · rw [if_pos hn] at hx
        rcases List.mem_append.mp hx with h | h
        · exact .inl h
        · exact .inr (List.mem_cons.mpr (.inl (List.mem_singleton.mp h)))
      · rw [if_neg hn] at hx
        rcases ih _ _ x hx with h | h
        · rcases List.mem_append.mp h with h' | h'
          · exact .inl h'
          · exact .inr (List.mem_cons.mpr (.inl (List.mem_singleton.mp h')))
        · exact .inr (List.mem_cons_of_mem _ h)

/-- The scan never emits two cards with the same identity tuple. -/
theorem pickScan_nodup (n : Nat) (l : List Card) :
    ∀ (seen : List (PyStr × PyStr × Option Nat × Option PyStr)) (out : List Card),
      (out.map idKey).Nodup → (∀ x ∈ out, idKey x ∈ seen) →
      ((pickScan n seen out l).map idKey).Nodup := by
  induction l with
  | nil =>
    intro seen out hnd _
    exact hnd
  | cons c rest ih =>
    intro seen out hnd hseen
    simp only [pickScan]
    by_cases hk : idKey c ∈ seen
    · rw [if_pos hk, if_pos hk]
      by_cases hn : n ≤ out.length
      · rw [if_pos hn]
        exact hnd
      · rw [if_neg hn]
        exact ih seen out hnd hseen
    · rw [if_neg hk, if_neg hk]
      have hnotin : idKey c ∉ out.map idKey := by
        intro hmem
        obtain ⟨x, hx, hxeq⟩ := List.mem_map.mp hmem
        exact hk (hxeq ▸ hseen x hx)
      have hnd' : ((out ++ [c]).map idKey).Nodup := by
        simp only [List.map_append, List.map_cons, List.map_nil]
        exact List.Nodup.append hnd (List.nodup_singleton _)
          (by simpa [List.disjoint_singleton] using hnotin)
      have hseen' : ∀ x ∈ out ++ [c], idKey x ∈ idKey c :: seen := by
        intro x hx
        rcases List.mem_append.mp hx with h | h
        · exact List.mem_cons_of_mem _ (hseen x h)
        · rw [List.mem_singleton.mp h]
          exact List.mem_cons_self _ _
      by_cases hn : n ≤ (out ++ [c]).length
      · rw [if_pos hn]
        exact hnd'
      · rw [if_neg hn]
        exact ih _ _ hnd' hseen'

/-- With a positive bound the scan's output stays within the bound. -/
theorem pickScan_length (n : Nat) (l : List Card) :
    ∀ (seen : List (PyStr × PyStr × Option Nat × Option PyStr)) (out : List Card),
      out.length < n → (pickScan n seen out l).length ≤ n := by
  induction l with
  | nil =>
    intro seen out hlt
    exact Nat.le_of_lt hlt
  | cons c rest ih =>
    intro seen out hlt
    simp only [pickScan]
    by_cases hk : idKey c ∈ seen
    · rw [if_pos hk, if_pos hk]
      by_cases hn : n ≤ out.length
      · rw [if_pos hn]
        exact Nat.le_of_lt hlt
      · rw [if_neg hn]
        exact ih seen out hlt
    · rw [if_neg hk, if_neg hk]
      have hlen : (out ++ [c]).length ≤ n := by
        simp only [List.length_append, List.length_singleton]
        omega
      by_cases hn : n ≤ (out ++ [c]).length
      · rw [if_pos hn]
        exact hlen
      · rw [if_neg hn]
        exact ih _ _ (Nat.lt_of_le_of_ne hlen (fun he => hn (Nat.le_of_eq he.symm)))

/-- Every card of the weighted multiset is a card of the input list. -/
theorem mem_of_mem_weightedPool (cards : List Card) (prog : Progress) :
    ∀ w, weightedPool cards prog = some w → ∀ x ∈ w, x ∈ cards := by
  induction cards with
  | nil =>
    intro w hw x hx
    simp only [weightedPool, Option.some.injEq] at hw
    rw [← hw] at hx
    exact absurd hx (List.not_mem_nil x)
  | cons c rest ih =>
    intro w hw x hx
    simp only [weightedPool, Option.bind_eq_bind, Option.bind_eq_some,
      Option.pure_def, Option.some.injEq] at hw
    obtain ⟨box, -, wt, -, tail, htail, hweq⟩ := hw
    rw [← hweq] at hx
    rcases List.mem_append.mp hx with h | h
    · rw [List.eq_of_mem_replicate h]
      exact List.mem_cons_self _ _
    · exact List.mem_cons_of_mem _ (ih tail htail x h)

/-- A duplicate-free list drawn from another list is no longer than the
other list's dedup. -/
theorem nodup_length_le_dedup {α : Type} [DecidableEq α] (l m : List α)
    (hn : l.Nodup) (hs : ∀ x ∈ l, x ∈ m) : l.length ≤ m.dedup.length := by
  calc l.length = l.toFinset.card := (List.toFinset_card_of_nodup hn).symm
    _ ≤ m.toFinset.card := Finset.card_le_card (by
        intro x hx
        rw [List.mem_toFinset] at hx ⊢
        exact hs x hx)
    _ = m.dedup.length := List.card_toFinset m

/-- C2 amended: for every card list, proficiency state whose box reads all
succeed, and requested round size N ≥ 1, the sampler returns a round with
no two cards of the same identity, of length at most N and at most the
number of distinct card identities in the input list.  (At N = 0 the loop's
post-append bound check still lets one card through; see the
counterexample.) -/
theorem pick_due_cards_amended (cards : List Card) (prog : Progress) (n : Nat)
    (shuffle : List Card → List Card) (w out : List Card)
    (hw : weightedPool cards prog = some w)
    (hperm : (shuffle w).Perm w)
    (hn : 1 ≤ n)
    (hout : pick_due_cards cards prog n shuffle = some out) :
    (out.map idKey).Nodup ∧ out.length ≤ n
      ∧ out.length ≤ (cards.map idKey).dedup.length := by
  have hout' : out = pickScan n [] [] (shuffle w) := by
    rw [pick_due_cards, hw] at hout
    simpa using hout.symm
  have hmem : ∀ x ∈ out, x ∈ cards := by
    intro x hx
    rw [hout'] at hx
    rcases pickScan_mem n [] [] (shuffle w) x hx with h | h
    · exact absurd h (List.not_mem_nil x)
    · exact mem_of_mem_weightedPool cards prog w hw x (hperm.mem_iff.mp h)
  have hnd : (out.map idKey).Nodup := by
    rw [hout']
    exact pickScan_nodup n (shuffle w) [] [] (by simp) (by simp)
  refine ⟨hnd, ?_, ?_⟩
  · rw [hout']
    exact pickScan_length n (shuffle w) [] [] (by simpa using hn)
  · have := nodup_length_le_dedup (out.map idKey) (cards.map idKey) hnd (by
      intro k hk
      obtain ⟨x, hx, hxeq⟩ := List.mem_map.mp hk
      exact hxeq ▸ List.mem_map_of_mem idKey (hmem x hx))
    simpa using this

/-- C2 counterexample: at requested round size 0 with one available card the
sampler still returns that card — the bound is checked only after an
append — so the output is longer than `min 0 1 = 0`. -/
theorem pick_due_cards_zero_cex :
    pick_due_cards [sampleCard] ⟨[]⟩ 0 (fun l => l) = some [sampleCard]
    ∧ ¬ (([sampleCard] : List Card).length
          ≤ min 0 ((([sampleCard] : List Card).map idKey).dedup.length)) := by
  constructor
  · rfl
  · decide

/-- Witness for C2 at one concrete card, the empty record and round size 1. -/
theorem pick_due_cards_amended_witness :
    (([sampleCard] : List Card).map idKey).Nodup
    ∧ ([sampleCard] : List Card).length ≤ 1
    ∧ ([sampleCard] : List Card).length
        ≤ (([sampleCard] : List Card).map idKey).dedup.length :=
  pick_due_cards_amended [sampleCard] ⟨[]⟩ 1 (fun l => l)
    (List.replicate 6 sampleCard) [sampleCard]
    (by rfl) (List.Perm.refl _) (by decide) (by rfl)

/-- Adding to the option set preserves its members. -/
theorem mem_setAdd_of_mem (options : List PyStr) (x y : PyStr) (h : y ∈ options) :
    y ∈ setAdd options x := by
  unfold setAdd
  by_cases hx : x ∈ options
  · rw [if_pos hx]
    exact h
  · rw [if_neg hx]
    exact List.mem_append_left _ h

/-- The added form is in the option set afterwards. -/
theorem mem_setAdd_self (options : List PyStr) (x : PyStr) : x ∈ setAdd options x := by
  unfold setAdd
  by_cases hx : x ∈ options
  · rw [if_pos hx]
    exact hx
  · rw [if_neg hx]
    exact List.mem_append_right _ (List.mem_singleton.mpr rfl)

/-- Adding to the option set keeps it duplicate-free. -/
theorem setAdd_nodup (options : List PyStr) (x : PyStr) (h : options.Nodup) :
    (setAdd options x).Nodup := by
  unfold setAdd
  by_cases hx : x ∈ options
  · rw [if_pos hx]
    exact h
  · rw [if_neg hx]
    exact List.Nodup.append h (List.nodup_singleton _)
      (by simpa [List.disjoint_singleton] using hx)

/-- The collection loop only grows the option set. -/
theorem mem_mcCollect_of_mem (correct : PyStr) (pool : List PyStr) :
    ∀ options : List PyStr, ∀ x ∈ options, x ∈ mcCollect correct options pool := by
  induction pool with
  | nil =>
    intro options x hx
    exact hx
  | cons f rest ih =>
    intro options x hx
    simp only [mcCollect]
    by_cases h4 : 4 ≤ options.length
    · rw [if_pos h4]
      exact hx
    · rw [if_neg h4]
      by_cases hne : normalize f ≠ normalize correct
      · rw [if_pos hne]
        exact ih _ x (mem_setAdd_of_mem options f x hx)
      · rw [if_neg hne]
        exact ih _ x hx

/-- The collection loop keeps the option set duplicate-free. -/
theorem mcCollect_nodup (correct : PyStr) (pool : List PyStr) :
    ∀ options : List PyStr, options.Nodup → (mcCollect correct options pool).Nodup := by
  induction pool with
  | nil =>
    intro options h
    exact h
  | cons f rest ih =>
    intro options h
    simp only [mcCollect]
    by_cases h4 : 4 ≤ options.length
    · rw [if_pos h4]
      exact h
    · rw [if_neg h4]
      by_cases hne : normalize f ≠ normalize correct
      · rw [if_pos hne]
        exact ih _ (setAdd_nodup options f h)
      · rw [if_neg hne]
        exact ih _ h

/-- Every option the loop adds differs from the correct form after
normalization. -/
theorem mcCollect_diff (correct : PyStr) (pool : List PyStr) :
    ∀ options : List PyStr,
      (∀ o ∈ options, o = correct ∨ normalize o ≠ normalize correct) →
      ∀ o ∈ mcCollect correct options pool,
        o = correct ∨ normalize o ≠ normalize correct := by
  induction pool with
  | nil =>
    intro options h
    exact h
  | cons f rest ih =>
    intro options h
    simp only [mcCollect]
    by_cases h4 : 4 ≤ options.length
    · rw [if_pos h4]
      exact h
    · rw [if_neg h4]
      by_cases hne : normalize f ≠ normalize correct
      · rw [if_pos hne]
        refine ih _ ?_
        intro o ho
        unfold setAdd at ho
        by_cases hf : f ∈ options
        · rw [if_pos hf] at ho
          exact h o ho
        · rw [if_neg hf] at ho
          rcases List.mem_append.mp ho with h' | h'
          · exact h o h'
          · exact .inr (List.mem_singleton.mp h' ▸ hne)
      · rw [if_neg hne]
        exact ih _ h

/-- The loop never grows the option set beyond 4 members. -/
theorem mcCollect_length (correct : PyStr) (pool : List PyStr) :
    ∀ options : List PyStr, options.length ≤ 4 →
      (mcCollect correct options pool).length ≤ 4 := by
  induction pool with
  | nil =>
    intro options h
    exact h
  | cons f rest ih =>
    intro options h
    simp only [mcCollect]
    by_cases h4 : 4 ≤ options.length
    · rw [if_pos h4]
      exact h
    · rw [if_neg h4]
      by_cases hne : normalize f ≠ normalize correct
      · rw [if_pos hne]
        refine ih _ ?_
        unfold setAdd
        by_cases hf : f ∈ options
        · rw [if_pos hf]
          exact h
        · rw [if_neg hf]
          simp only [List.length_append, List.length_singleton]
          omega
      · rw [if_neg hne]
        exact ih _ h

/-- When the loop ends below 4 options it has exhausted the pool: every
pool form either normalizes like the correct form or was collected. -/
theorem mcCollect_exhaust (correct : PyStr) (pool : List PyStr) :
    ∀ options : List PyStr, (mcCollect correct options pool).length < 4 →
      ∀ f ∈ pool, normalize f = normalize correct ∨ f ∈ mcCollect correct options pool := by
  induction pool with
  | nil =>
    intro options _ f hf
    exact absurd hf (List.not_mem_nil f)
  | cons g rest ih =>
    intro options hlen f hf
    simp only [mcCollect] at hlen ⊢
    by_cases h4 : 4 ≤ options.length
    · rw [if_pos h4] at hlen
      omega
    · rw [if_neg h4] at hlen ⊢
      by_cases hne : normalize g ≠ normalize correct
      · rw [if_pos hne] at hlen ⊢
        rcases List.mem_cons.mp hf with h | h
        · right
          rw [h]
          exact mem_mcCollect_of_mem correct rest _ g (mem_setAdd_self options g)
        · exact ih _ hlen f h
      · rw [if_neg hne] at hlen ⊢
        push_neg at hne
        rcases List.mem_cons.mp hf with h | h
        · exact .inl (h ▸ hne)
        · exact ih _ hlen f h

/-- C6 amended: the option set always contains the correct form, has no two
members equal as raw strings, every other member differs from the correct
form after normalization, and it has at most 4 members — fewer than 4 only
when the pool is exhausted (every remaining form normalizes like the
correct one or is already collected, i.e. no padding).  Two distractors
may however be equal to each other after normalization; see the
counterexample. -/
theorem mc_options_amended (correct : PyStr) (cardsAll : List Card) (pool : List PyStr)
    (hperm : pool.Perm (formPool cardsAll)) :
    correct ∈ mc_options correct pool
    ∧ (mc_options correct pool).Nodup
    ∧ (∀ o ∈ mc_options correct pool, o ≠ correct → normalize o ≠ normalize correct)
    ∧ (mc_options correct pool).length ≤ 4
    ∧ ((mc_options correct pool).length < 4 →
        ∀ f ∈ formPool cardsAll,
          normalize f = normalize correct ∨ f ∈ mc_options correct pool) := by
  refine ⟨?_, ?_, ?_, ?_, ?_⟩
  · exact mem_mcCollect_of_mem correct pool [correct] correct (List.mem_singleton.mpr rfl)
  · exact mcCollect_nodup correct pool [correct] (List.nodup_singleton _)
  · intro o ho hne
    rcases mcCollect_diff correct pool [correct]
      (by intro o ho'; exact .inl (List.mem_singleton.mp ho')) o ho with h | h
    · exact absurd h hne
    · exact h
  · exact mcCollect_length correct pool [correct] (by simp)
  · intro hlen f hf
    exact mcCollect_exhaust correct pool [correct] hlen f (hperm.mem_iff.mpr hf)

/-- C6 counterexample: with the correct form `ho` and a pool that offers the
pair `è` / `e` (equal after normalization) plus further distinct forms, the
loop collects both of the pair — the card space supplies 4 candidate forms
that are pairwise distinct after normalization and all differ from `ho`,
yet the 4 returned options contain two members equal after normalization. -/
theorem mc_options_cex :
    formPool (make_cards [mcVerb] [pstr "presente"])
        = [pstr "ho", pstr "è", pstr "e", pstr "xa", pstr "xb", pstr "xc"]
    ∧ mc_options (pstr "ho") (formPool (make_cards [mcVerb] [pstr "presente"]))
        = [pstr "ho", pstr "è", pstr "e", pstr "xa"]
    ∧ (mc_options (pstr "ho") (formPool (make_cards [mcVerb] [pstr "presente"]))).length = 4
    ∧ pstr "è" ∈ mc_options (pstr "ho") (formPool (make_cards [mcVerb] [pstr "presente"]))
    ∧ pstr "e" ∈ mc_options (pstr "ho") (formPool (make_cards [mcVerb] [pstr "presente"]))
    ∧ pstr "è" ≠ pstr "e"
    ∧ normalize (pstr "è") = normalize (pstr "e")
    ∧ List.Pairwise (fun a b => normalize a ≠ normalize b)
        [pstr "è", pstr "xa", pstr "xb", pstr "xc"]
    ∧ (∀ f ∈ [pstr "è", pstr "xa", pstr "xb", pstr "xc"],
        f ∈ formPool (make_cards [mcVerb] [pstr "presente"])
        ∧ normalize f ≠ normalize (pstr "ho")) := by
  decide

/-- Witness for C6 at the concrete card space of `mcVerb` and the unshuffled
pool. -/
theorem mc_options_amended_witness :
    pstr "ho" ∈ mc_options (pstr "ho") (formPool (make_cards [mcVerb] [pstr "presente"]))
    ∧ (mc_options (pstr "ho") (formPool (make_cards [mcVerb] [pstr "presente"]))).Nodup
    ∧ (∀ o ∈ mc_options (pstr "ho") (formPool (make_cards [mcVerb] [pstr "presente"])),
        o ≠ pstr "ho" → normalize o ≠ normalize (pstr "ho"))
    ∧ (mc_options (pstr "ho") (formPool (make_cards [mcVerb] [pstr "presente"]))).length ≤ 4
    ∧ ((mc_options (pstr "ho") (formPool (make_cards [mcVerb] [pstr "presente"]))).length < 4 →
        ∀ f ∈ formPool (make_cards [mcVerb] [pstr "presente"]),
          normalize f = normalize (pstr "ho")
          ∨ f ∈ mc_options (pstr "ho") (formPool (make_cards [mcVerb] [pstr "presente"]))) :=
  mc_options_amended (pstr "ho") (make_cards [mcVerb] [pstr "presente"])
    (formPool (make_cards [mcVerb] [pstr "presente"])) (List.Perm.refl _)

/-- Box values inside the weight dict are exactly 1–5. -/
theorem boxWeight_isSome (b : Int) (h1 : 1 ≤ b) (h5 : b ≤ 5) :
    ∃ wt, boxWeight b = some wt := by
  interval_cases b <;> simp [boxWeight]

/-- The weighted multiset exists whenever every box read succeeds and lands
in the weight dict. -/
theorem weightedPool_isSome (prog : Progress) (cards : List Card)
    (h : ∀ c ∈ cards, ∃ b : Int, prog.get_box c = some b ∧ 1 ≤ b ∧ b ≤ 5) :
    ∃ w, weightedPool cards prog = some w := by
  induction cards with
  | nil => exact ⟨[], rfl⟩
  | cons c rest ih =>
    obtain ⟨b, hb, hb1, hb5⟩ := h c (List.mem_cons_self _ _)
    obtain ⟨wt, hwt⟩ := boxWeight_isSome b hb1 hb5
    obtain ⟨tail, htail⟩ := ih (fun x hx => h x (List.mem_cons_of_mem _ hx))
    exact ⟨List.replicate wt c ++ tail, by
      simp [weightedPool, hb, hwt, htail]⟩

/-- C10: the sampler is total when every box value it reads lies in 1–5,
and a stored box outside that range — which the loader accepts without
validation — makes the weight lookup fail, so no round is returned. -/
theorem sampler_box_range_spec :
    (∀ (cards : List Card) (prog : Progress) (n : Nat) (shuffle : List Card → List Card),
      (∀ c ∈ cards, ∃ b : Int, prog.get_box c = some b ∧ 1 ≤ b ∧ b ≤ 5) →
      ∃ out, pick_due_cards cards prog n shuffle = some out)
    ∧ pick_due_cards [sampleCard] ⟨[(pstr "fare|presente|io", 7)]⟩ 5 (fun l => l) = none := by
  constructor
  · intro cards prog n shuffle h
    obtain ⟨w, hw⟩ := weightedPool_isSome prog cards h
    exact ⟨pickScan n [] [] (shuffle w), by simp [pick_due_cards, hw]⟩
  · rfl

/-- Char.ofNat below the surrogate range round-trips through toNat. -/
theorem toNat_ofNat_lt (n : Nat) (h : n < 55296) : (Char.ofNat n).toNat = n := by
  rw [Char.ofNat, dif_pos (Or.inl h)]
  rfl

/-- Characters with equal code points are equal. -/
theorem char_eq_of_toNat_eq {c d : Char} (h : c.toNat = d.toNat) : c = d := by
  rw [← Char.ofNat_toNat c, ← Char.ofNat_toNat d, h]

/-- Code point of a lowered character. -/
theorem pyLower_toNat (c : Char) :
    (pyLower c).toNat =
      if (65 ≤ c.toNat ∧ c.toNat ≤ 90) ∨ (192 ≤ c.toNat ∧ c.toNat ≤ 222 ∧ c.toNat ≠ 215)
      then c.toNat + 32 else c.toNat := by
  by_cases h : (65 ≤ c.toNat ∧ c.toNat ≤ 90) ∨ (192 ≤ c.toNat ∧ c.toNat ≤ 222 ∧ c.toNat ≠ 215)
  · simp only [pyLower]
    rw [if_pos h, if_pos h]
    exact toNat_ofNat_lt _ (by omega)
  · simp only [pyLower]
    rw [if_neg h, if_neg h]

/-- Lowering is idempotent. -/
theorem pyLower_idem (c : Char) : pyLower (pyLower c) = pyLower c := by
  apply char_eq_of_toNat_eq
  have ht := pyLower_toNat c
  by_cases h : (65 ≤ c.toNat ∧ c.toNat ≤ 90) ∨ (192 ≤ c.toNat ∧ c.toNat ≤ 222 ∧ c.toNat ≠ 215)
  · rw [if_pos h] at ht
    rw [pyLower_toNat (pyLower c), ht, if_neg (by omega)]
  · rw [if_neg h] at ht
    rw [pyLower_toNat (pyLower c), ht, if_neg h]

/-- Lowering neither creates nor destroys combining marks. -/
theorem isMn_pyLower (c : Char) : isMn (pyLower c) = isMn c := by
  simp only [isMn, decide_eq_decide]
  rw [pyLower_toNat]
  by_cases h : (65 ≤ c.toNat ∧ c.toNat ≤ 90) ∨ (192 ≤ c.toNat ∧ c.toNat ≤ 222 ∧ c.toNat ≠ 215)
  · rw [if_pos h]
    omega
  · rw [if_neg h]

/-- Lowering neither creates nor destroys whitespace. -/
theorem isPySpace_pyLower (c : Char) : isPySpace (pyLower c) = isPySpace c := by
  simp only [isPySpace, decide_eq_decide]
  rw [pyLower_toNat]
  by_cases h : (65 ≤ c.toNat ∧ c.toNat ≤ 90) ∨ (192 ≤ c.toNat ∧ c.toNat ≤ 222 ∧ c.toNat ≠ 215)
  · rw [if_pos h]
    omega
  · rw [if_neg h]

/-- A non-combining-mark character contributes exactly one character to the
normalization output, and that character is fixed by every later stage and
is whitespace exactly when the input was. -/
theorem procChar_spec (c : Char) (hmn : isMn c = false) :
    procChar c = [procChar1 c] ∧ canonChar (procChar1 c)
    ∧ isPySpace (procChar1 c) = isPySpace c := by
  have hsp : isPySpace (pyLower c) = isPySpace c := isPySpace_pyLower c
  have hmn' : isMn (pyLower c) = false := by rw [isMn_pyLower]; exact hmn
  by_cases h1 : pyLower c = 'à'
  · have hp : procChar c = ['a'] := by unfold procChar; rw [h1]; decide
    have hp1 : procChar1 c = 'a' := by rw [procChar1, hp]; rfl
    refine ⟨by rw [hp, hp1], by rw [hp1]; exact ⟨by decide, by decide, by decide⟩, ?_⟩
    rw [hp1, ← hsp, h1]
    decide
  by_cases h2 : pyLower c = 'è'
  · have hp : procChar c = ['e'] := by unfold procChar; rw [h2]; decide
    have hp1 : procChar1 c = 'e' := by rw [procChar1, hp]; rfl
    refine ⟨by rw [hp, hp1], by rw [hp1]; exact ⟨by decide, by decide, by decide⟩, ?_⟩
    rw [hp1, ← hsp, h2]
    decide
  by_cases h3 : pyLower c = 'é'
  · have hp : procChar c = ['e'] := by unfold procChar; rw [h3]; decide
    have hp1 : procChar1 c = 'e' := by rw [procChar1, hp]; rfl
    refine ⟨by rw [hp, hp1], by rw [hp1]; exact ⟨by decide, by decide, by decide⟩, ?_⟩
    rw [hp1, ← hsp, h3]
    decide
  by_cases h4 : pyLower c = 'ì'
  · have hp : procChar c = ['i'] := by unfold procChar; rw [h4]; decide
    have hp1 : procChar1 c = 'i' := by rw [procChar1, hp]; rfl
    refine ⟨by rw [hp, hp1], by rw [hp1]; exact ⟨by decide, by decide, by decide⟩, ?_⟩
    rw [hp1, ← hsp, h4]
    decide
  by_cases h5 : pyLower c = 'ò'
  · have hp : procChar c = ['o'] := by unfold procChar; rw [h5]; decide
    have hp1 : procChar1 c = 'o' := by rw [procChar1, hp]; rfl
    refine ⟨by rw [hp, hp1], by rw [hp1]; exact ⟨by decide, by decide, by decide⟩, ?_⟩
    rw [hp1, ← hsp, h5]
    decide
  by_cases h6 : pyLower c = 'ù'
  · have hp : procChar c = ['u'] := by unfold procChar; rw [h6]; decide
    have hp1 : procChar1 c = 'u' := by rw [procChar1, hp]; rfl
    refine ⟨by rw [hp, hp1], by rw [hp1]; exact ⟨by decide, by decide, by decide⟩, ?_⟩
    rw [hp1, ← hsp, h6]
    decide
  · have hn : nfdChar (pyLower c) = [pyLower c] := by
      unfold nfdChar
      rw [if_neg h1, if_neg h2, if_neg h3, if_neg h4, if_neg h5, if_neg h6]
    have hp : procChar c = [pyLower c] := by
      unfold procChar
      rw [hn]
      simp [hmn']
    have hp1 : procChar1 c = pyLower c := by rw [procChar1, hp]; rfl
    refine ⟨by rw [hp, hp1], ⟨?_, ?_, ?_⟩, ?_⟩
    · rw [hp1]
      exact hmn'
    · rw [hp1]
      exact pyLower_idem c
    · rw [hp1]
      exact hn
    · rw [hp1]
      exact hsp

/-- A character every stage fixes passes through `procChar` unchanged. -/
theorem procChar_of_canon {c : Char} (h : canonChar c) :
    procChar c = [c] ∧ procChar1 c = c := by
  obtain ⟨hmn, hl, hn⟩ := h
  have hp : procChar c = [c] := by
    unfold procChar
    rw [hl, hn]
    simp [hmn]
  exact ⟨hp, by rw [procChar1, hp]; rfl⟩

/-- The post-strip stages of `normalize` act blockwise per character. -/
theorem normalize_eq_flatMap (s : PyStr) :
    normalize s = (pyStrip s).flatMap procChar := by
  unfold normalize procChar
  rw [List.flatMap_map, List.filter_flatMap]

/-- On combining-mark-free input the blocks are singletons. -/
theorem flatMap_procChar (u : PyStr) (h : ∀ c ∈ u, isMn c = false) :
    u.flatMap procChar = u.map procChar1 := by
  induction u with
  | nil => rfl
  | cons c rest ih =>
    rw [List.flatMap_cons, List.map_cons,
      (procChar_spec c (h c (List.mem_cons_self _ _))).1,
      ih (fun x hx => h x (List.mem_cons_of_mem _ hx)), List.singleton_append]

/-- The head surviving `dropWhile` fails the predicate. -/
theorem head?_dropWhile_false {p : Char → Bool} (l : PyStr) (x : Char)
    (h : (l.dropWhile p).head? = some x) : p x = false := by
  induction l with
  | nil => simp [List.dropWhile] at h
  | cons a rest ih =>
    rw [List.dropWhile_cons] at h
    by_cases hp : p a = true
    · rw [if_pos hp] at h
      exact ih h
    · rw [if_neg hp] at h
      have ha : a = x := Option.some.inj h
      rw [← ha]
      exact Bool.of_not_eq_true hp

/-- dropWhile is the identity when the head already fails the predicate. -/
theorem dropWhile_eq_self_of_head {p : Char → Bool} (l : PyStr)
    (h : ∀ x, l.head? = some x → p x = false) : l.dropWhile p = l := by
  cases l with
  | nil => rfl
  | cons a rest =>
    rw [List.dropWhile_cons, if_neg]
    simp [h a rfl]

/-- Stripping fixes a string with no surrounding whitespace. -/
theorem pyStrip_eq_self (l : PyStr)
    (hh : ∀ x, l.head? = some x → isPySpace x = false)
    (hl : ∀ x, l.getLast? = some x → isPySpace x = false) : pyStrip l = l := by
  unfold pyStrip
  rw [dropWhile_eq_self_of_head l hh,
    dropWhile_eq_self_of_head l.reverse
      (by intro x hx; rw [List.head?_reverse] at hx; exact hl x hx),
    List.reverse_reverse]

/-- Stripping only removes characters. -/
theorem mem_pyStrip {l : PyStr} {x : Char} (h : x ∈ pyStrip l) : x ∈ l := by
  unfold pyStrip at h
  rw [List.mem_reverse] at h
  have h2 := List.Sublist.mem h (List.dropWhile_sublist isPySpace)
  rw [List.mem_reverse] at h2
  exact List.Sublist.mem h2 (List.dropWhile_sublist isPySpace)

/-- The first character of a stripped string is not whitespace. -/
theorem head?_pyStrip (s : PyStr) (x : Char) (h : (pyStrip s).head? = some x) :
    isPySpace x = false := by
  unfold pyStrip at h
  rw [List.head?_reverse] at h
  obtain ⟨pre, hpre⟩ :=
    List.dropWhile_suffix (l := (s.dropWhile isPySpace).reverse) isPySpace
  have hvl : ((s.dropWhile isPySpace).reverse).getLast? = some x := by
    conv_lhs => rw [← hpre]
    rw [List.getLast?_append, h]
    rfl
  rw [List.getLast?_reverse] at hvl
  exact head?_dropWhile_false s x hvl

/-- The last character of a stripped string is not whitespace. -/
theorem getLast?_pyStrip (s : PyStr) (x : Char) (h : (pyStrip s).getLast? = some x) :
    isPySpace x = false := by
  unfold pyStrip at h
  rw [List.getLast?_reverse] at h
  exact head?_dropWhile_false _ x h

/-- C9 counterexample: normalization is not idempotent — on the string
U+0300 (combining grave), space, `x` the leading mark shields the space from
the strip, then is removed, so one pass yields ` x` and a second pass `x`. -/
theorem normalize_idem_cex :
    normalize (normalize [combGrave, ' ', 'x']) ≠ normalize [combGrave, ' ', 'x'] := by
  decide

/-- C9 amended: on every string that contains no combining-mark character
(category Mn) normalization is idempotent; a string that is already a
normalization output of such a string therefore compares under the answer
comparator exactly as the original does. -/
theorem normalize_idem_amended (s : PyStr) (h : ∀ c ∈ s, isMn c = false) :
    normalize (normalize s) = normalize s := by
  have hu : ∀ c ∈ pyStrip s, isMn c = false := fun c hc => h c (mem_pyStrip hc)
  have h1 : normalize s = (pyStrip s).map procChar1 := by
    rw [normalize_eq_flatMap, flatMap_procChar _ hu]
  have hcanon : ∀ d ∈ normalize s, canonChar d := by
    intro d hd
    rw [h1] at hd
    obtain ⟨c, hc, rfl⟩ := List.mem_map.mp hd
    exact (procChar_spec c (hu c hc)).2.1
  have hmn2 : ∀ d ∈ normalize s, isMn d = false := fun d hd => (hcanon d hd).1
  have hfix : pyStrip (normalize s) = normalize s := by
    apply pyStrip_eq_self
    · intro x hx
      rw [h1, List.head?_map] at hx
      cases hh : (pyStrip s).head? with
      | none =>
        rw [hh] at hx
        simp at hx
      | some c =>
        rw [hh] at hx
        have hcx : procChar1 c = x := Option.some.inj hx
        obtain ⟨ys, hys⟩ := List.head?_eq_some_iff.mp hh
        have hcmem : c ∈ pyStrip s := by rw [hys]; exact List.mem_cons_self _ _
        rw [← hcx, (procChar_spec c (hu c hcmem)).2.2]
        exact head?_pyStrip s c hh
    · intro x hx
      rw [h1, List.getLast?_map] at hx
      cases hh : (pyStrip s).getLast? with
      | none =>
        rw [hh] at hx
        simp at hx
      | some c =>
        rw [hh] at hx
        have hcx : procChar1 c = x := Option.some.inj hx
        have hcmem : c ∈ pyStrip s :=
          List.mem_of_mem_getLast? (Option.mem_def.mpr hh)
        rw [← hcx, (procChar_spec c (hu c hcmem)).2.2]
        exact getLast?_pyStrip s c hh
  rw [normalize_eq_flatMap (normalize s), hfix, flatMap_procChar _ hmn2,
    List.map_congr_left (fun x hx =>
      show procChar1 x = id x from (procChar_of_canon (hcanon x hx)).2),
    List.map_id]

/-- Witness for C9 at the combining-mark-free string `È ho`. -/
theorem normalize_idem_amended_witness :
    normalize (normalize (pstr "È ho")) = normalize (pstr "È ho") :=
  normalize_idem_amended (pstr "È ho") (by decide)

end ItalianVerbit
